import Mathlib

/-!
Verification of the YellowToyCar frame-selection engine
(scripts/ai/frame_selection_core.py and scripts/ai/select_frames_vit.py)
against its natural-language specification.

The Python code is shallowly embedded: numeric signals become lists of
rationals, numpy arrays become lists, filesystem state becomes explicit
data, and fallible operations return Option/Except values.
-/

namespace YellowToyCar

/-! ## Data model (frame_selection_core.py lines 126-288) -/

/-- TransformMode enum: transform mode for resizing to target dimensions. -/
inductive TransformMode
  | crop
  | pad
  | scale
deriving DecidableEq

/-- Alignment enum for crop/pad operations along the adjusted axis. -/
inductive Alignment
  | center
  | top
  | bottom
  | left
  | right
deriving DecidableEq

/-- TransformConfig dataclass: mode, alignment, pad fill color.
The three float fill components are modelled as rationals. -/
structure TransformConfig where
  mode : TransformMode
  alignment : Alignment
  fill : ℚ × ℚ × ℚ
deriving DecidableEq

/-- EmbeddingConfig dataclass: bundled settings for embedding computation
and caching. -/
structure EmbeddingConfig where
  model : String
  model_input_size : Nat
  normalize : Bool
  transform : TransformConfig
deriving DecidableEq

/-- EmbeddingMeta dataclass: metadata for cached embeddings. -/
structure EmbeddingMeta where
  config : EmbeddingConfig
  frame_count : Nat
  embedding_shape : Nat × Nat × Nat
  version : Nat
deriving DecidableEq

/-- EmbeddingConfig.__eq__ (frame_selection_core.py lines 207-216):
compares model, model_input_size, normalize and transform fieldwise.
Python field equality is modelled by decidable structural equality. -/
def configEq (a b : EmbeddingConfig) : Bool :=
  decide (a.model = b.model) &&
  decide (a.model_input_size = b.model_input_size) &&
  decide (a.normalize = b.normalize) &&
  decide (a.transform = b.transform)

/-- EmbeddingMeta.__eq__ (frame_selection_core.py lines 260-270): compares
the four config fields and the version; frame_count and embedding_shape
do not participate. -/
def metaEq (a b : EmbeddingMeta) : Bool :=
  decide (a.config.model = b.config.model) &&
  decide (a.config.model_input_size = b.config.model_input_size) &&
  decide (a.config.normalize = b.config.normalize) &&
  decide (a.config.transform = b.config.transform) &&
  decide (a.version = b.version)

/-! ## Temporal smoothing (frame_selection_core.py lines 514-522)

numpy arrays are modelled as lists of rationals.  np.pad with mode
edge prepends window/2 copies of the first element and appends
window/2 copies of the last element; np.convolve in valid mode with a
uniform kernel of length `window` produces, for each start index, the
mean of the `window` entries starting there, and its output length is
max(M, N) - min(M, N) + 1 where M, N are the lengths of the operands. -/

/-- temporal_smoothing: moving-average smoothing with edge padding,
truncated back to the input length. -/
def temporal_smoothing (signal : List ℚ) (window : Nat) : List ℚ :=
  if window ≤ 1 then signal
  else
    let pad := window / 2
    let padded :=
      List.replicate pad (signal.headD 0) ++ signal ++
        List.replicate pad (signal.getLastD 0)
    let outLen := max padded.length window - min padded.length window + 1
    let smoothed := (List.range outLen).map
      (fun i => ((padded.drop i).take window).sum / (window : ℚ))
    smoothed.take signal.length

/-! ## Cache key (frame_selection_core.py lines 314-340) -/

/-- A filesystem path, split into parent directory and final component
(pathlib's Path.name). -/
structure FsPath where
  dir : String
  name : String
deriving DecidableEq

/-- Ordering of paths by filename only: the comparison key used by
sorted(frames, key=lambda p: p.name). -/
def nameLe (a b : FsPath) : Prop := a.name ≤ b.name

instance : DecidableRel nameLe :=
  fun a b => inferInstanceAs (Decidable (a.name ≤ b.name))

instance : IsTotal FsPath nameLe := ⟨fun a b => le_total a.name b.name⟩

instance : IsTrans FsPath nameLe := ⟨fun _ _ _ h1 h2 => le_trans h1 h2⟩

/-- The NUL separator byte written between hashed fields. -/
def nul : String := String.singleton (Char.ofNat 0)

/-- TransformMode.value strings. -/
def modeValue : TransformMode → String
  | TransformMode.crop => "crop"
  | TransformMode.pad => "pad"
  | TransformMode.scale => "scale"

/-- Alignment.value strings. -/
def alignmentValue : Alignment → String
  | Alignment.center => "center"
  | Alignment.top => "top"
  | Alignment.bottom => "bottom"
  | Alignment.left => "left"
  | Alignment.right => "right"

/-- Python str(c) for a fill component, modelled by the canonical
rational rendering (any injective deterministic rendering works for the
determinism claims). -/
def ratStr (c : ℚ) : String := toString c

/-- Python str(bool(b)). -/
def pyBoolStr (b : Bool) : String := if b then "True" else "False"

/-- The transform_repr string
mode.value|alignment.value|fill0,fill1,fill2. -/
def transformRepr (t : TransformConfig) : String :=
  modeValue t.mode ++ "|" ++ alignmentValue t.alignment ++ "|" ++
    ratStr t.fill.1 ++ "," ++ ratStr t.fill.2.1 ++ "," ++ ratStr t.fill.2.2

/-- compute_cache_key: the SHA-1 hasher consumes exactly the byte stream
assembled below (config fields in fixed order, NUL-separated, then the
frame filenames sorted by name, each NUL-terminated).  The hex digest is
a deterministic function of this stream, so the model returns the stream
itself: equal streams give equal digests, which is what the purity claim
is about. -/
def compute_cache_key (config : EmbeddingConfig) (frames : List FsPath) :
    String :=
  config.model ++ nul ++
  toString config.model_input_size ++ nul ++
  pyBoolStr config.normalize ++ nul ++
  transformRepr config.transform ++ nul ++
  String.join ((List.insertionSort nameLe frames).map (fun p => p.name ++ nul))

/-- Sorting frames by filename and projecting the filenames is the same
as sorting the filenames. -/
theorem map_name_insertionSort (fs : List FsPath) :
    (List.insertionSort nameLe fs).map FsPath.name =
      List.insertionSort (fun a b : String => a ≤ b) (fs.map FsPath.name) := by
  apply List.eq_of_perm_of_sorted
    (r := fun a b : String => a ≤ b)
  · exact ((List.perm_insertionSort nameLe fs).map FsPath.name).trans
      (List.perm_insertionSort (fun a b : String => a ≤ b)
        (fs.map FsPath.name)).symm
  · have hs := List.sorted_insertionSort nameLe fs
    exact (List.pairwise_map).mpr hs
  · exact List.sorted_insertionSort _ _

/-- Two permuted string lists have the same insertion sort. -/
theorem insertionSort_eq_of_perm {l1 l2 : List String} (h : l1.Perm l2) :
    List.insertionSort (fun a b : String => a ≤ b) l1 =
      List.insertionSort (fun a b : String => a ≤ b) l2 := by
  apply List.eq_of_perm_of_sorted
    (r := fun a b : String => a ≤ b)
  · exact (List.perm_insertionSort _ l1).trans
      (h.trans (List.perm_insertionSort _ l2).symm)
  · exact List.sorted_insertionSort _ _
  · exact List.sorted_insertionSort _ _

/-! ## Candidate selector (frame_selection_core.py lines 525-576)

The three metric arrays are lists of rationals of one shared length
(numpy raises otherwise); indexing is modelled with getD. -/

/-- The threshold mask plus np.where plus the +1 shift: 0-based
transition indices whose concentration is at least the concentration
threshold, total change at least the total-change threshold and entropy
at most the entropy threshold, attributed to the later frame. -/
def candidateIndices (total_change concentration entropy : List ℚ)
    (ct tt et : ℚ) : List Nat :=
  ((List.range concentration.length).filter (fun i =>
      decide (ct ≤ concentration.getD i 0) &&
      decide (tt ≤ total_change.getD i 0) &&
      decide (entropy.getD i 0 ≤ et))).map (fun i => i + 1)

/-- The local-maximum test: frame index idx survives when no transition
within ±min_spacing offsets (bounds-checked against the concentration
array) has strictly larger concentration than transition idx-1. -/
def isLocalMax (concentration : List ℚ) (minSpacing : Nat) (idx : Nat) :
    Bool :=
  (List.range (2 * minSpacing + 1)).all (fun o =>
    let offset : Int := (o : Int) - (minSpacing : Int)
    if offset = 0 then true
    else
      let nm1 : Int := (idx : Int) + offset - 1
      if 0 ≤ nm1 ∧ nm1 < (concentration.length : Int) then
        !(decide (concentration.getD (idx - 1) 0 <
            concentration.getD nm1.toNat 0))
      else true)

/-- The greedy minimum-spacing loop over the survivors after the first
kept index: keep a candidate exactly when it lies at least min_spacing
past the last kept one (Python int subtraction, hence Int here). -/
def enforceSpacingGo (minSpacing : Nat) (lastKept : Nat) :
    List Nat → List Nat
  | [] => []
  | y :: ys =>
    if (minSpacing : Int) ≤ (y : Int) - (lastKept : Int) then
      y :: enforceSpacingGo minSpacing y ys
    else
      enforceSpacingGo minSpacing lastKept ys

/-- select_candidate_frames: threshold mask, local-maximum filter, then
greedy minimum-spacing enforcement (first survivor always kept; lists of
at most one survivor are returned as they are). -/
def select_candidate_frames (total_change concentration entropy : List ℚ)
    (ct tt et : ℚ) (minSpacing : Nat) : List Nat :=
  if (candidateIndices total_change concentration entropy ct tt et).isEmpty
  then []
  else if ((candidateIndices total_change concentration entropy ct tt
      et).filter (isLocalMax concentration minSpacing)).length ≤ 1 then
    (candidateIndices total_change concentration entropy ct tt et).filter
      (isLocalMax concentration minSpacing)
  else
    match (candidateIndices total_change concentration entropy ct tt
        et).filter (isLocalMax concentration minSpacing) with
    | [] => []
    | x :: xs => x :: enforceSpacingGo minSpacing x xs

/-- Every candidate index is at least 1 and at most the length of the
concentration array. -/
theorem candidateIndices_mem_bounds (total_change concentration entropy :
    List ℚ) (ct tt et : ℚ) {x : Nat}
    (hx : x ∈ candidateIndices total_change concentration entropy ct tt et) :
    1 ≤ x ∧ x ≤ concentration.length := by
  unfold candidateIndices at hx
  obtain ⟨i, hi, rfl⟩ := List.mem_map.mp hx
  have hr := List.mem_range.mp (List.mem_of_mem_filter hi)
  omega

/-- The greedy loop keeps a chain with gaps of at least min_spacing from
the last kept index, and only emits elements of its input. -/
theorem enforceSpacingGo_spec (m : Nat) (ys : List Nat) :
    ∀ lastKept : Nat,
      List.Chain (fun a b => a + m ≤ b) lastKept
        (enforceSpacingGo m lastKept ys) ∧
      ∀ y ∈ enforceSpacingGo m lastKept ys, y ∈ ys := by
  induction ys with
  | nil =>
    intro lastKept
    exact ⟨List.Chain.nil, by simp [enforceSpacingGo]⟩
  | cons y ys ih =>
    intro lastKept
    unfold enforceSpacingGo
    by_cases h : (m : Int) ≤ (y : Int) - (lastKept : Int)
    · rw [if_pos h]
      refine ⟨List.Chain.cons (by omega) (ih y).1, ?_⟩
      intro z hz
      rcases List.mem_cons.mp hz with rfl | hz2
      · exact List.mem_cons_self _ _
      · exact List.mem_cons_of_mem _ ((ih y).2 _ hz2)
    · rw [if_neg h]
      exact ⟨(ih lastKept).1, fun z hz =>
        List.mem_cons_of_mem _ ((ih lastKept).2 _ hz)⟩

/-! ## Farthest-point sampling (frame_selection_core.py lines 579-602,
select_frames_vit.py lines 573-608; both copies implement the identical
algorithm) -/

/-- Squared Euclidean distance between two feature vectors.  The code
compares Euclidean distances only through min and argmax; the square
root is strictly monotone on nonnegative values, so every comparison is
unchanged when working with the squares, which keeps the model in ℚ. -/
def sqDist (u v : List ℚ) : ℚ :=
  ((u.zip v).map (fun p => (p.1 - p.2) ^ 2)).sum

/-- Minimum of a list (numpy min along the selected axis; the list is
nonempty whenever the code evaluates it). -/
def listMin : List ℚ → ℚ
  | [] => 0
  | x :: xs => xs.foldl min x

/-- Running maximum of the numpy argmax scan. -/
def argmaxGoV (bv : ℚ) : List ℚ → ℚ
  | [] => bv
  | y :: ys => if bv < y then argmaxGoV y ys else argmaxGoV bv ys

/-- numpy argmax scan: a later element replaces the current best index
only when strictly larger, so the first maximal index is kept. -/
def argmaxGo (best : Nat) (bv : ℚ) (i : Nat) : List ℚ → Nat
  | [] => best
  | y :: ys =>
    if bv < y then argmaxGo i y (i + 1) ys else argmaxGo best bv (i + 1) ys

/-- numpy argmax over a list: index of the first maximal element
(0 on the empty list, where numpy raises instead). -/
def argmaxIdx : List ℚ → Nat
  | [] => 0
  | x :: xs => argmaxGo 0 x 1 xs

/-- distances[:, selected].min(axis=1): for every point i < n the
minimum distance from i to the already selected indices. -/
def minDists (dist : Nat → Nat → ℚ) (n : Nat) (sel : List Nat) : List ℚ :=
  (List.range n).map (fun i => listMin (sel.map (fun s => dist i s)))

/-- The greedy selection loop of farthest_point_sampling, run t times:
each iteration appends the argmax of the min-distance vector. -/
def fpsLoop (dist : Nat → Nat → ℚ) (n : Nat) : Nat → List Nat → List Nat
  | 0, sel => sel
  | t + 1, sel => fpsLoop dist n t (sel ++ [argmaxIdx (minDists dist n sel)])

/-- Pairwise (squared) distance between rows of the embedding matrix. -/
def rowDist (E : List (List ℚ)) (i j : Nat) : ℚ :=
  sqDist (E.getD i []) (E.getD j [])

/-- farthest_point_sampling.  The uniformly random initial index
np.random.randint(n_points) is modelled by the parameter seed.  When
n_samples ≥ n_points all indices are returned unchanged; otherwise the
greedy loop runs n_samples - 1 times from the seed and the selected
indices are returned sorted ascending (np.array(sorted(selected))). -/
def farthest_point_sampling (E : List (List ℚ)) (nSamples seed : Nat) :
    List Nat :=
  if E.length ≤ nSamples then List.range E.length
  else
    List.insertionSort (fun a b : Nat => a ≤ b)
      (fpsLoop (rowDist E) E.length (nSamples - 1) [seed])

theorem sqDist_nonneg (u v : List ℚ) : 0 ≤ sqDist u v := by
  apply List.sum_nonneg
  intro x hx
  obtain ⟨p, _, rfl⟩ := List.mem_map.mp hx
  positivity

theorem sqDist_self (v : List ℚ) : sqDist v v = 0 := by
  induction v with
  | nil => rfl
  | cons a v ih => simpa [sqDist, List.zip_cons_cons] using ih

theorem sqDist_pos : ∀ (u v : List ℚ), u.length = v.length → u ≠ v →
    0 < sqDist u v
  | [], [], _, hne => absurd rfl hne
  | [], _ :: _, hlen, _ => by simp at hlen
  | _ :: _, [], hlen, _ => by simp at hlen
  | a :: u, b :: v, hlen, hne => by
    have hrest : 0 ≤ sqDist u v := sqDist_nonneg u v
    have hsq : (0 : ℚ) ≤ (a - b) ^ 2 := sq_nonneg _
    have hcons : sqDist (a :: u) (b :: v) = (a - b) ^ 2 + sqDist u v := by
      simp [sqDist, List.zip_cons_cons]
    by_cases hab : a = b
    · subst hab
      have htail : u ≠ v := by
        intro h
        exact hne (by rw [h])
      have := sqDist_pos u v (by simpa using hlen) htail
      rw [hcons]
      nlinarith
    · have : (0 : ℚ) < (a - b) ^ 2 := by
        have : a - b ≠ 0 := sub_ne_zero.mpr hab
        positivity
      rw [hcons]
      nlinarith

theorem foldl_min_le_init (l : List ℚ) : ∀ a : ℚ, l.foldl min a ≤ a := by
  induction l with
  | nil => intro a; simp
  | cons y ys ih =>
    intro a
    calc (y :: ys).foldl min a = ys.foldl min (min a y) := rfl
    _ ≤ min a y := ih (min a y)
    _ ≤ a := min_le_left _ _

theorem foldl_min_le_mem (l : List ℚ) :
    ∀ (a x : ℚ), x ∈ l → l.foldl min a ≤ x := by
  induction l with
  | nil => intro a x hx; simp at hx
  | cons y ys ih =>
    intro a x hx
    rcases List.mem_cons.mp hx with rfl | hx2
    · calc (x :: ys).foldl min a = ys.foldl min (min a x) := rfl
      _ ≤ min a x := foldl_min_le_init ys (min a x)
      _ ≤ x := min_le_right _ _
    · exact ih (min a y) x hx2

theorem le_foldl_min (l : List ℚ) :
    ∀ (a c : ℚ), c ≤ a → (∀ x ∈ l, c ≤ x) → c ≤ l.foldl min a := by
  induction l with
  | nil => intro a c hca _; simpa using hca
  | cons y ys ih =>
    intro a c hca hall
    have hy : c ≤ y := hall y (List.mem_cons_self _ _)
    exact ih (min a y) c (le_min hca hy)
      (fun x hx => hall x (List.mem_cons_of_mem _ hx))

theorem lt_foldl_min (l : List ℚ) :
    ∀ (a c : ℚ), c < a → (∀ x ∈ l, c < x) → c < l.foldl min a := by
  induction l with
  | nil => intro a c hca _; simpa using hca
  | cons y ys ih =>
    intro a c hca hall
    have hy : c < y := hall y (List.mem_cons_self _ _)
    exact ih (min a y) c (lt_min hca hy)
      (fun x hx => hall x (List.mem_cons_of_mem _ hx))

/-- listMin of a list of nonnegative entries is nonnegative. -/
theorem listMin_nonneg {l : List ℚ} (hall : ∀ x ∈ l, (0 : ℚ) ≤ x) :
    0 ≤ listMin l := by
  cases l with
  | nil => exact le_refl 0
  | cons y ys =>
    exact le_foldl_min ys y 0 (hall y (List.mem_cons_self _ _))
      (fun x hx => hall x (List.mem_cons_of_mem _ hx))

/-- listMin is at most every member of the list. -/
theorem listMin_le_mem {l : List ℚ} {x : ℚ} (hx : x ∈ l) : listMin l ≤ x := by
  cases l with
  | nil => simp at hx
  | cons y ys =>
    rcases List.mem_cons.mp hx with rfl | hx2
    · exact foldl_min_le_init ys x
    · exact foldl_min_le_mem ys y x hx2

/-- listMin of a nonempty list of elements strictly above c is strictly
above c. -/
theorem lt_listMin {l : List ℚ} {c : ℚ} (hne : l ≠ [])
    (hall : ∀ x ∈ l, c < x) : c < listMin l := by
  cases l with
  | nil => exact absurd rfl hne
  | cons y ys =>
    exact lt_foldl_min ys y c (hall y (List.mem_cons_self _ _))
      (fun x hx => hall x (List.mem_cons_of_mem _ hx))

theorem argmaxGoV_init_le : ∀ (ys : List ℚ) (bv : ℚ), bv ≤ argmaxGoV bv ys := by
  intro ys
  induction ys with
  | nil => intro bv; simp [argmaxGoV]
  | cons y ys ih =>
    intro bv
    unfold argmaxGoV
    by_cases h : bv < y
    · rw [if_pos h]
      exact le_trans (le_of_lt h) (ih y)
    · rw [if_neg h]
      exact ih bv

theorem argmaxGoV_mem_le : ∀ (ys : List ℚ) (bv y : ℚ), y ∈ ys →
    y ≤ argmaxGoV bv ys := by
  intro ys
  induction ys with
  | nil => intro bv y hy; simp at hy
  | cons z zs ih =>
    intro bv y hy
    unfold argmaxGoV
    rcases List.mem_cons.mp hy with rfl | hy2
    · by_cases h : bv < y
      · rw [if_pos h]; exact argmaxGoV_init_le zs y
      · rw [if_neg h]
        exact le_trans (le_of_not_lt h) (argmaxGoV_init_le zs bv)
    · by_cases h : bv < z
      · rw [if_pos h]; exact ih z y hy2
      · rw [if_neg h]; exact ih bv y hy2

/-- The argmax scan either keeps the incoming best index (and the
incoming best value is the running maximum), or lands on offset j of the
scanned suffix, whose element is the running maximum. -/
theorem argmaxGo_cases : ∀ (ys : List ℚ) (best : Nat) (bv : ℚ) (i : Nat),
    (argmaxGo best bv i ys = best ∧ argmaxGoV bv ys = bv) ∨
    (∃ j, j < ys.length ∧ argmaxGo best bv i ys = i + j ∧
      argmaxGoV bv ys = ys.getD j 0) := by
  intro ys
  induction ys with
  | nil => intro best bv i; exact Or.inl ⟨rfl, rfl⟩
  | cons y ys ih =>
    intro best bv i
    unfold argmaxGo argmaxGoV
    by_cases h : bv < y
    · rw [if_pos h, if_pos h]
      rcases ih i y (i + 1) with ⟨h1, h2⟩ | ⟨j, hj, h1, h2⟩
      · exact Or.inr ⟨0, by simp, by omega, by simpa using h2⟩
      · exact Or.inr ⟨j + 1, by simpa using hj, by omega, by simpa using h2⟩
    · rw [if_neg h, if_neg h]
      rcases ih best bv (i + 1) with ⟨h1, h2⟩ | ⟨j, hj, h1, h2⟩
      · exact Or.inl ⟨h1, h2⟩
      · exact Or.inr ⟨j + 1, by simpa using hj, by omega, by simpa using h2⟩

/-- numpy argmax on a nonempty list: the index is in range and the
element there dominates every member. -/
theorem argmaxIdx_spec {l : List ℚ} (hne : l ≠ []) :
    argmaxIdx l < l.length ∧ ∀ y ∈ l, y ≤ l.getD (argmaxIdx l) 0 := by
  cases l with
  | nil => exact absurd rfl hne
  | cons x xs =>
    have hidx : argmaxIdx (x :: xs) = argmaxGo 0 x 1 xs := rfl
    rcases argmaxGo_cases xs 0 x 1 with ⟨h1, h2⟩ | ⟨j, hj, h1, h2⟩
    · refine ⟨by simp [hidx, h1], ?_⟩
      intro y hy
      rw [hidx, h1]
      rcases List.mem_cons.mp hy with rfl | hy2
      · simp
      · simpa using h2 ▸ argmaxGoV_mem_le xs x y hy2
    · refine ⟨by simp [hidx, h1]; omega, ?_⟩
      intro y hy
      rw [hidx, h1]
      have hget : (x :: xs).getD (1 + j) 0 = xs.getD j 0 := by
        have : 1 + j = j + 1 := by omega
        rw [this]
        rfl
      rw [hget, ← h2]
      rcases List.mem_cons.mp hy with rfl | hy2
      · exact argmaxGoV_init_le xs y
      · exact argmaxGoV_mem_le xs x y hy2

/-- getD into a mapped range: the i-th min-distance entry for i < n. -/
theorem minDists_getD (dist : Nat → Nat → ℚ) (n : Nat) (sel : List Nat)
    {i : Nat} (hi : i < n) :
    (minDists dist n sel).getD i 0 = listMin (sel.map (fun s => dist i s)) := by
  unfold minDists
  have hlen : i < ((List.range n).map
      (fun i => listMin (sel.map (fun s => dist i s)))).length := by
    simpa using hi
  rw [List.getD_eq_get _ _ hlen, List.get_map]
  congr 1
  simp

theorem minDists_length (dist : Nat → Nat → ℚ) (n : Nat) (sel : List Nat) :
    (minDists dist n sel).length = n := by
  simp [minDists]

/-- When fewer than n pairwise-positively-separated points are selected,
the argmax of the min-distance vector is in range and is a fresh index:
every unselected point has strictly positive min distance while selected
points have min distance zero, and the argmax dominates both. -/
theorem fps_step_fresh (dist : Nat → Nat → ℚ) (n : Nat) (sel : List Nat)
    (hself : ∀ i, dist i i = 0) (hnonneg : ∀ i j, 0 ≤ dist i j)
    (hpos : ∀ i j, i < n → j < n → i ≠ j → 0 < dist i j)
    (hne : sel ≠ []) (hsub : ∀ x ∈ sel, x < n)
    (hlt : sel.length < n) :
    argmaxIdx (minDists dist n sel) < n ∧
    argmaxIdx (minDists dist n sel) ∉ sel := by
  obtain ⟨x0, hx0⟩ := List.exists_mem_of_ne_nil sel hne
  have hnpos : 0 < n := lt_of_le_of_lt (Nat.zero_le _) (hsub x0 hx0)
  have hmdne : minDists dist n sel ≠ [] := by
    intro h
    have := minDists_length dist n sel
    rw [h] at this
    simp at this
    omega
  obtain ⟨haLt, haMax⟩ := argmaxIdx_spec hmdne
  rw [minDists_length] at haLt
  -- A fresh index exists because sel is a nodup list inside [0, n).
  have hfresh : ∃ i0, i0 < n ∧ i0 ∉ sel := by
    by_contra hcon
    push_neg at hcon
    have hsubset : (List.range n).toFinset ⊆ sel.toFinset := by
      intro i hi
      rw [List.mem_toFinset, List.mem_range] at hi
      rw [List.mem_toFinset]
      exact hcon i hi
    have h1 : (List.range n).toFinset.card ≤ sel.toFinset.card :=
      Finset.card_le_card hsubset
    have h2 : (List.range n).toFinset.card = n := by
      rw [List.toFinset_card_of_nodup (List.nodup_range n)]
      simp
    have h3 : sel.toFinset.card ≤ sel.length := List.toFinset_card_le sel
    omega
  obtain ⟨i0, hi0n, hi0sel⟩ := hfresh
  -- The fresh index has a strictly positive min-distance entry.
  have hpos0 : 0 < (minDists dist n sel).getD i0 0 := by
    rw [minDists_getD dist n sel hi0n]
    apply lt_listMin
    · simpa using hne
    · intro x hx
      obtain ⟨s, hs, rfl⟩ := List.mem_map.mp hx
      exact hpos i0 s hi0n (hsub s hs) (fun h => hi0sel (h ▸ hs))
  -- The argmax value dominates the fresh entry, hence is positive.
  have hmem : (minDists dist n sel).getD i0 0 ∈ minDists dist n sel := by
    have hlen : i0 < (minDists dist n sel).length := by
      rw [minDists_length]; exact hi0n
    rw [List.getD_eq_get _ _ hlen]
    exact List.get_mem _ _ _
  have hapos : 0 < (minDists dist n sel).getD (argmaxIdx (minDists dist n
      sel)) 0 := lt_of_lt_of_le hpos0 (haMax _ hmem)
  refine ⟨haLt, ?_⟩
  -- A selected index would have min distance zero: contradiction.
  intro hmemSel
  have hzero : (minDists dist n sel).getD (argmaxIdx (minDists dist n sel))
      0 = 0 := by
    rw [minDists_getD dist n sel haLt]
    apply le_antisymm
    · have : dist (argmaxIdx (minDists dist n sel))
          (argmaxIdx (minDists dist n sel)) ∈
          sel.map (fun s => dist (argmaxIdx (minDists dist n sel)) s) :=
        List.mem_map.mpr ⟨_, hmemSel, rfl⟩
      calc listMin _ ≤ _ := listMin_le_mem this
      _ = 0 := hself _
    · apply listMin_nonneg
      intro w hw
      obtain ⟨t, _, rfl⟩ := List.mem_map.mp hw
      exact hnonneg _ _
  rw [hzero] at hapos
  exact lt_irrefl 0 hapos

/-- Invariant of the greedy selection loop: starting from a nonempty
nodup selection inside [0, n) with room for t more picks, the loop adds
exactly t fresh in-range indices. -/
theorem fpsLoop_spec (dist : Nat → Nat → ℚ) (n : Nat)
    (hself : ∀ i, dist i i = 0) (hnonneg : ∀ i j, 0 ≤ dist i j)
    (hpos : ∀ i j, i < n → j < n → i ≠ j → 0 < dist i j) :
    ∀ (t : Nat) (sel : List Nat), sel ≠ [] → (∀ x ∈ sel, x < n) →
      sel.Nodup → sel.length + t ≤ n →
      (fpsLoop dist n t sel).length = sel.length + t ∧
      (fpsLoop dist n t sel).Nodup ∧
      ∀ x ∈ fpsLoop dist n t sel, x < n := by
  intro t
  induction t with
  | zero =>
    intro sel _ hsub hnd _
    exact ⟨rfl, hnd, hsub⟩
  | succ t ih =>
    intro sel hne hsub hnd hlen
    obtain ⟨haLt, haNotMem⟩ := fps_step_fresh dist n sel hself hnonneg hpos
      hne hsub (by omega)
    have hstep :
        fpsLoop dist n (t + 1) sel =
          fpsLoop dist n t (sel ++ [argmaxIdx (minDists dist n sel)]) := rfl
    rw [hstep]
    have hne2 : sel ++ [argmaxIdx (minDists dist n sel)] ≠ [] := by simp
    have hsub2 : ∀ x ∈ sel ++ [argmaxIdx (minDists dist n sel)], x < n := by
      intro x hx
      rcases List.mem_append.mp hx with hx1 | hx2
      · exact hsub x hx1
      · rw [List.mem_singleton.mp hx2]; exact haLt
    have hnd2 : (sel ++ [argmaxIdx (minDists dist n sel)]).Nodup := by
      rw [List.nodup_append]
      refine ⟨hnd, List.nodup_singleton _, ?_⟩
      intro a ha hb
      rw [List.mem_singleton] at hb
      subst hb
      exact haNotMem ha
    have hlen2 : (sel ++ [argmaxIdx (minDists dist n sel)]).length + t ≤ n := by
      simp only [List.length_append, List.length_singleton]
      omega
    obtain ⟨hl, hn, hs⟩ := ih _ hne2 hsub2 hnd2 hlen2
    refine ⟨?_, hn, hs⟩
    rw [hl]
    simp only [List.length_append, List.length_singleton]
    omega

/-! ## Target-count auto-calibration (select_frames_vit.py lines 723-748) -/

/-- np.percentile with the default linear interpolation: for a sorted
copy s of the data and rank r = q(n-1)/100, interpolate between
s[floor r] and s[ceil r]. -/
def npPercentile (l : List ℚ) (q : ℚ) : ℚ :=
  let s := List.insertionSort (fun a b : ℚ => a ≤ b) l
  let rank : ℚ := q * ((s.length : ℚ) - 1) / 100
  s.getD (Int.floor rank).toNat 0 +
    (s.getD (Int.ceil rank).toNat 0 - s.getD (Int.floor rank).toNat 0) *
      (rank - ((Int.floor rank : Int) : ℚ))

/-- One selector run of the auto-calibration loop: the concentration
threshold comes from the loop's percentile p, the total-change and
entropy thresholds from the fixed CLI percentiles. -/
def selectAtConcPercentile (total_change concentration entropy : List ℚ)
    (p tcp entp : ℚ) (minSpacing : Nat) : List Nat :=
  select_candidate_frames total_change concentration entropy
    (npPercentile concentration p) (npPercentile total_change tcp)
    (npPercentile entropy entp) minSpacing

/-- range(95, 0, -5): the fixed descending percentile schedule. -/
def percentileSchedule : List ℚ :=
  [95, 90, 85, 80, 75, 70, 65, 60, 55, 50, 45, 40, 35, 30, 25, 20, 15, 10, 5]

/-- The auto-calibration loop: best_candidates is overwritten at every
step and the loop breaks at the first step whose candidate count is at
most the target. -/
def autoCalibrate (f : ℚ → List Nat) (target : Nat) :
    List ℚ → List Nat → List Nat
  | [], best => best
  | p :: ps, _ =>
    if (f p).length ≤ target then f p
    else autoCalibrate f target ps (f p)

/-- Target-count mode of main: run the selector down the percentile
schedule starting from an empty best_candidates list. -/
def targetCountSelect (total_change concentration entropy : List ℚ)
    (tcp entp : ℚ) (minSpacing target : Nat) : List Nat :=
  autoCalibrate
    (fun p => selectAtConcPercentile total_change concentration entropy p
      tcp entp minSpacing)
    target percentileSchedule []

/-- The calibration loop returns the value of f at the first schedule
entry satisfying the target, and at the last schedule entry when none
does. -/
theorem autoCalibrate_eq (f : ℚ → List Nat) (target : Nat) :
    ∀ (sched : List ℚ) (best : List Nat), sched ≠ [] →
      autoCalibrate f target sched best =
        match sched.find? (fun p => decide ((f p).length ≤ target)) with
        | some p => f p
        | none => f (sched.getLastD 0) := by
  intro sched
  induction sched with
  | nil => intro best h; exact absurd rfl h
  | cons p ps ih =>
    intro best _
    unfold autoCalibrate
    by_cases h : (f p).length ≤ target
    · rw [if_pos h, List.find?_cons_of_pos _ (by simpa using h)]
    · rw [if_neg h, List.find?_cons_of_neg _ (by simpa using h)]
      cases hps : ps with
      | nil => simp [autoCalibrate, List.find?]
      | cons q qs =>
        subst hps
        rw [ih (f p) (by simp)]
        simp only [List.getLastD_cons]

/-! ## Embedding cache store (frame_selection_core.py lines 343-478)

The cache directory holds, for each cache key K, a tensor file
embeddings_K.pt and a sidecar embeddings_K.json.  The key-to-filename
map is injective, so the directory is modelled keyed directly by cache
key; file contents are modelled by what the loaders can observe. -/

/-- An embeddings tensor of shape [T][P][D]. -/
abbrev Tensor := List (List (List ℚ))

/-- Observable content of a sidecar JSON file. -/
inductive JsonContent
  | valid (m : EmbeddingMeta)
  | malformed
deriving DecidableEq

/-- Observable content of a tensor .pt file. -/
inductive PtContent
  | tensor (t : Tensor)
  | corrupt
deriving DecidableEq

/-- A cache directory: sidecar and tensor files by cache key, in
directory-listing order. -/
structure CacheDir where
  jsonFiles : List (String × JsonContent)
  ptFiles : List (String × PtContent)

/-- load_cached_embeddings_meta: none when the sidecar is missing, fails
to parse with json.load / from_dict, or carries a version other than
1.  All exceptions are caught and mapped to None in the source. -/
def load_cached_embeddings_meta (dir : CacheDir) (key : String) :
    Option EmbeddingMeta :=
  match dir.jsonFiles.lookup key with
  | none => none
  | some JsonContent.malformed => none
  | some (JsonContent.valid m) => if m.version = 1 then some m else none

/-- load_cached_embeddings_data: none, never an exception, when the
tensor file is missing or torch.load fails to decode it. -/
def load_cached_embeddings_data (dir : CacheDir) (key : String) :
    Option Tensor :=
  match dir.ptFiles.lookup key with
  | none => none
  | some PtContent.corrupt => none
  | some (PtContent.tensor t) => some t

/-- find_existing_cache_in_dir: walk the sorted glob of sidecar files
and keep every metadata that loads, silently discarding the rest. -/
def find_existing_cache_in_dir (dir : CacheDir) : List EmbeddingMeta :=
  (List.insertionSort (fun a b : String => a ≤ b)
    (dir.jsonFiles.map Prod.fst)).filterMap (load_cached_embeddings_meta dir)

/-- File kind inside a cache entry: the tensor artifact or the JSON
sidecar. -/
inductive FileKind
  | pt
  | json
deriving DecidableEq

/-- A filesystem operation performed by the save path, identified by the
cache key and file kind it touches (key and kind determine the
filename embeddings_<key>.<ext> injectively). -/
inductive FsOp
  | deleteFile (key : String) (kind : FileKind)
  | writeFile (key : String) (kind : FileKind)
deriving DecidableEq

def FsOp.isDelete : FsOp → Bool
  | FsOp.deleteFile _ _ => true
  | FsOp.writeFile _ _ => false

def FsOp.isWrite : FsOp → Bool
  | FsOp.deleteFile _ _ => false
  | FsOp.writeFile _ _ => true

/-- clear_other_caches (lines 380-396) as a trace of filesystem
operations: unlink every tensor file whose key differs from keep_key,
then every sidecar whose key differs, in directory-listing order. -/
def clear_other_caches_trace (dir : CacheDir) (keepKey : String) :
    List FsOp :=
  ((dir.ptFiles.map Prod.fst).filter (fun k => k != keepKey)).map
    (fun k => FsOp.deleteFile k FileKind.pt) ++
  ((dir.jsonFiles.map Prod.fst).filter (fun k => k != keepKey)).map
    (fun k => FsOp.deleteFile k FileKind.json)

/-- save_embeddings_cache (lines 435-467) as a trace of filesystem
operations: when clear_others is set, the sibling deletions run first
(the in-code comment explains embeddings can be huge), then torch.save
writes the tensor, then the JSON sidecar is written. -/
def save_embeddings_cache_trace (dir : CacheDir) (config : EmbeddingConfig)
    (frames : List FsPath) (clearOthers : Bool) : List FsOp :=
  (if clearOthers then
    clear_other_caches_trace dir (compute_cache_key config frames)
  else []) ++
  [FsOp.writeFile (compute_cache_key config frames) FileKind.pt,
   FsOp.writeFile (compute_cache_key config frames) FileKind.json]

/-- Some delete occurs strictly before some write in the trace. -/
def deleteThenWrite : List FsOp → Bool
  | [] => false
  | op :: rest =>
    (op.isDelete && rest.any FsOp.isWrite) || deleteThenWrite rest

/-- Some write occurs strictly before some delete in the trace. -/
def writeThenDelete : List FsOp → Bool
  | [] => false
  | op :: rest =>
    (op.isWrite && rest.any FsOp.isDelete) || writeThenDelete rest

/-- The cache-probe phase of load_or_compute_embeddings (lines 846-859):
the returned (embeddings, from_cache) pair.  The computed argument
stands for the tensor produced by the model backend on a miss (model
inference is an external collaborator). -/
def load_or_compute_result (dir : CacheDir) (config : EmbeddingConfig)
    (frames : List FsPath) (force : Bool) (computed : Tensor) :
    Tensor × Bool :=
  if force then (computed, false)
  else
    match load_cached_embeddings_meta dir
        (compute_cache_key config frames) with
    | none => (computed, false)
    | some meta =>
      if configEq meta.config config then
        match load_cached_embeddings_data dir
            (compute_cache_key config frames) with
        | some t => (t, true)
        | none => (computed, false)
      else (computed, false)

/-- A successful lookup key is among the stored keys. -/
theorem lookup_some_key_mem {α : Type} {l : List (String × α)} {k : String}
    {v : α} (h : l.lookup k = some v) : k ∈ l.map Prod.fst := by
  induction l with
  | nil => simp [List.lookup] at h
  | cons e es ih =>
    rw [List.lookup] at h
    cases hbe : (k == e.1) with
    | true =>
      simp only [List.map_cons, List.mem_cons]
      exact Or.inl (by simpa using hbe)
    | false =>
      rw [hbe] at h
      exact List.mem_cons_of_mem _ (ih h)

/-- The metadata loader only ever returns version-1 metadata. -/
theorem load_meta_version {dir : CacheDir} {key : String}
    {m : EmbeddingMeta} (h : load_cached_embeddings_meta dir key = some m) :
    m.version = 1 := by
  unfold load_cached_embeddings_meta at h
  cases hl : dir.jsonFiles.lookup key with
  | none => rw [hl] at h; simp at h
  | some c =>
    rw [hl] at h
    cases c with
    | malformed => simp at h
    | valid m2 =>
      have h2 : (if m2.version = 1 then some m2 else none) = some m := h
      by_cases hv : m2.version = 1
      · rw [if_pos hv] at h2
        cases h2
        exact hv
      · rw [if_neg hv] at h2
        simp at h2

/-! ## Frame catalog (frame_selection_core.py lines 291-312; the
fewer-than-2 guard sits at every call site: select_frames_vit.py lines
626-630 and frame_selection_visualizer.py lines 1400-1402, 1523-1524) -/

/-- A directory entry as seen by Path.iterdir: a final name and whether
it is a regular file. -/
structure DirEntry where
  name : String
  isFile : Bool
deriving DecidableEq

/-- Index of the last dot in a character list, if any. -/
def lastDotIndex : List Char → Option Nat
  | [] => none
  | c :: cs =>
    match lastDotIndex cs with
    | some i => some (i + 1)
    | none => if c = '.' then some 0 else none

/-- pathlib's Path.suffix: the extension from the last dot, empty when
the dot is the first or last character or absent. -/
def pathSuffix (name : String) : String :=
  match lastDotIndex name.toList with
  | none => ""
  | some i =>
    if 0 < i ∧ i < name.toList.length - 1 then
      String.mk (name.toList.drop i)
    else ""

/-- Python str.lower restricted to ASCII, as applied to extensions. -/
def strLower (s : String) : String := String.mk (s.toList.map Char.toLower)

/-- SUPPORTED_EXTENSIONS. -/
def SUPPORTED_EXTENSIONS : List String := [".jpg", ".jpeg", ".png"]

/-- collect_frames: keep regular files whose lowercased suffix is
supported, sorted by filename. -/
def collect_frames (entries : List DirEntry) : List String :=
  List.insertionSort (fun a b : String => a ≤ b)
    ((entries.filter (fun e => e.isFile &&
      SUPPORTED_EXTENSIONS.contains (strLower (pathSuffix e.name)))).map
      (fun e => e.name))

/-- The failure every caller raises when fewer than 2 frames are found
(SystemExit in the CLI, an error dialog in the GUI); the spec names it
EmptyCatalog. -/
inductive CatalogError
  | EmptyCatalog
deriving DecidableEq

/-- The Frame Catalog operation as every caller performs it: collect
frames, fail when fewer than 2 are found. -/
def catalogFrames (entries : List DirEntry) :
    Except CatalogError (List String) :=
  if (collect_frames entries).length < 2 then
    Except.error CatalogError.EmptyCatalog
  else Except.ok (collect_frames entries)

/-! ## Claim theorems -/

/-- Claim C4: for every directory in which fewer than 2 entries are
regular files with a supported image extension, the Frame Catalog
operation fails with EmptyCatalog instead of returning a frame list. -/
theorem catalog_fails_below_two_frames (entries : List DirEntry)
    (h : (entries.filter (fun e => e.isFile &&
      SUPPORTED_EXTENSIONS.contains (strLower (pathSuffix e.name)))).length
      < 2) :
    catalogFrames entries = Except.error CatalogError.EmptyCatalog := by
  unfold catalogFrames
  rw [if_pos ?cond]
  case cond =>
    unfold collect_frames
    rw [List.length_insertionSort, List.length_map]
    exact h

/-- Witness for C4: a directory with one jpg file, one unsupported text
file and one subdirectory yields EmptyCatalog. -/
theorem catalog_fails_below_two_frames_witness :
    catalogFrames
      [{ name := "0001_a.jpg", isFile := true },
       { name := "notes.txt", isFile := true },
       { name := "sub.jpg", isFile := false }] =
      Except.error CatalogError.EmptyCatalog :=
  catalog_fails_below_two_frames _ (by decide)

/-- Claim C10: EmbeddingMeta equality compares only the config fields
(model, model_input_size, normalize, transform) and the version; two
EmbeddingMeta values with equal config and equal version compare equal
even when their frame_count or embedding_shape fields differ. -/
theorem metaEq_depends_only_on_config_and_version (a b : EmbeddingMeta)
    (hc : a.config = b.config) (hv : a.version = b.version) :
    metaEq a b = true := by
  simp [metaEq, hc, hv]

/-- Witness for C10: two metas sharing config and version but with
different frame_count (5 vs 7) and different embedding_shape compare
equal under EmbeddingMeta.__eq__. -/
theorem metaEq_depends_only_on_config_and_version_witness :
    metaEq
      { config := { model := "vit_base_patch16_224.dino",
                    model_input_size := 224, normalize := true,
                    transform := { mode := TransformMode.pad,
                                   alignment := Alignment.center,
                                   fill := (0, 0, 0) } },
        frame_count := 5, embedding_shape := (5, 196, 768), version := 1 }
      { config := { model := "vit_base_patch16_224.dino",
                    model_input_size := 224, normalize := true,
                    transform := { mode := TransformMode.pad,
                                   alignment := Alignment.center,
                                   fill := (0, 0, 0) } },
        frame_count := 7, embedding_shape := (7, 196, 768), version := 1 }
      = true :=
  metaEq_depends_only_on_config_and_version _ _ rfl rfl

/-- A list of at most one element is vacuously a chain. -/
theorem chain_of_length_le_one {α : Type} {R : α → α → Prop} :
    ∀ {l : List α}, l.length ≤ 1 → List.Chain' R l
  | [], _ => List.chain'_nil
  | [x], _ => List.chain'_singleton x
  | _ :: _ :: _, h => by simp at h

/-- Claim C2: for every embedding sequence of T ≥ 2 frames, smoothed
signal triples of length T-1, any thresholds and any min_spacing ≥ 1,
select_candidate_frames returns a strictly increasing list of integers, each
in [1, T-1], with consecutive kept indices at least min_spacing apart. -/
theorem select_candidate_frames_increasing_spaced (T : Nat)
    (total_change concentration entropy : List ℚ) (ct tt et : ℚ)
    (minSpacing : Nat) (_hT : 2 ≤ T)
    (_h1 : total_change.length = T - 1) (h2 : concentration.length = T - 1)
    (_h3 : entropy.length = T - 1) (hm : 1 ≤ minSpacing) :
    List.Chain' (fun a b => a < b ∧ a + minSpacing ≤ b)
      (select_candidate_frames total_change concentration entropy ct tt et
        minSpacing) ∧
    ∀ x ∈ select_candidate_frames total_change concentration entropy ct tt
      et minSpacing, 1 ≤ x ∧ x ≤ T - 1 := by
  have hbound : ∀ x ∈ (candidateIndices total_change concentration entropy
      ct tt et).filter (isLocalMax concentration minSpacing),
      1 ≤ x ∧ x ≤ T - 1 := by
    intro x hx
    have hb := candidateIndices_mem_bounds total_change concentration
      entropy ct tt et (List.mem_of_mem_filter hx)
    omega
  unfold select_candidate_frames
  by_cases he :
      (candidateIndices total_change concentration entropy ct tt et).isEmpty
  · rw [if_pos he]
    exact ⟨List.chain'_nil, by simp⟩
  · rw [if_neg he]
    by_cases hl : ((candidateIndices total_change concentration entropy ct
        tt et).filter (isLocalMax concentration minSpacing)).length ≤ 1
    · rw [if_pos hl]
      exact ⟨chain_of_length_le_one hl, hbound⟩
    · rw [if_neg hl]
      cases hsel : (candidateIndices total_change concentration entropy ct
          tt et).filter (isLocalMax concentration minSpacing) with
      | nil => exact ⟨List.chain'_nil, by simp⟩
      | cons x xs =>
        constructor
        · show List.Chain (fun a b => a < b ∧ a + minSpacing ≤ b) x
            (enforceSpacingGo minSpacing x xs)
          exact List.Chain.imp (fun a b hab => ⟨by omega, hab⟩)
            (enforceSpacingGo_spec minSpacing xs x).1
        · intro z hz
          rcases List.mem_cons.mp hz with rfl | hz
          · exact hbound _ (hsel ▸ List.mem_cons_self z xs)
          · have hmem := (enforceSpacingGo_spec minSpacing xs x).2 z hz
            exact hbound _ (hsel ▸ List.mem_cons_of_mem x hmem)

/-- Witness for C2: T = 5, signals of length 4, thresholds picking
transitions 0, 1 and 3, min_spacing 2; the selector's output satisfies
the chain and bound properties at this concrete input. -/
theorem select_candidate_frames_increasing_spaced_witness :
    List.Chain' (fun a b => a < b ∧ a + 2 ≤ b)
      (select_candidate_frames [(5 : ℚ), 5, 1, 5] [(9 : ℚ), 8, 1, 7]
        [(0 : ℚ), 0, 0, 0] 2 3 1 2) ∧
    ∀ x ∈ select_candidate_frames [(5 : ℚ), 5, 1, 5] [(9 : ℚ), 8, 1, 7]
        [(0 : ℚ), 0, 0, 0] 2 3 1 2, 1 ≤ x ∧ x ≤ 5 - 1 :=
  select_candidate_frames_increasing_spaced 5 _ _ _ 2 3 1 2 (by decide)
    (by decide) (by decide) (by decide) (by decide)

/-- Appending a delete-free tail to all-delete operations never puts a
write before a delete. -/
theorem writeThenDelete_append {ds ws : List FsOp}
    (hd : ∀ op ∈ ds, op.isDelete = true)
    (hw : writeThenDelete ws = false) :
    writeThenDelete (ds ++ ws) = false := by
  induction ds with
  | nil => simpa using hw
  | cons op rest ih =>
    have hop : op.isDelete = true := hd op (List.mem_cons_self _ _)
    have hopw : op.isWrite = false := by
      cases op with
      | deleteFile k kind => rfl
      | writeFile k kind => simp [FsOp.isDelete] at hop
    show ((op.isWrite && ((rest ++ ws).any FsOp.isDelete)) ||
      writeThenDelete (rest ++ ws)) = false
    rw [hopw]
    simp only [Bool.false_and, Bool.false_or]
    exact ih (fun o ho => hd o (List.mem_cons_of_mem _ ho))

/-- Every operation emitted by clear_other_caches is a deletion. -/
theorem clear_trace_all_deletes (dir : CacheDir) (keepKey : String) :
    ∀ op ∈ clear_other_caches_trace dir keepKey, op.isDelete = true := by
  intro op hop
  unfold clear_other_caches_trace at hop
  rcases List.mem_append.mp hop with h | h <;>
  · obtain ⟨k, _, rfl⟩ := List.mem_map.mp h
    rfl

/-- clear_other_caches never deletes a file of the kept key. -/
theorem clear_trace_spares_keep (dir : CacheDir) (keepKey : String)
    (kind : FileKind) :
    FsOp.deleteFile keepKey kind ∉ clear_other_caches_trace dir keepKey := by
  intro hmem
  unfold clear_other_caches_trace at hmem
  rcases List.mem_append.mp hmem with h | h <;>
  · obtain ⟨k, hk, heq⟩ := List.mem_map.mp h
    injection heq with h1 _
    subst h1
    have hf := List.of_mem_filter hk
    simp at hf

/-- Sample cache directory for the C1 counterexample: one preexisting
cache entry under key aaa. -/
def c1dir : CacheDir :=
  { jsonFiles := [("aaa", JsonContent.malformed)],
    ptFiles := [("aaa", PtContent.corrupt)] }

/-- Sample config for the C1 counterexample. -/
def c1config : EmbeddingConfig :=
  { model := "m", model_input_size := 224, normalize := true,
    transform := { mode := TransformMode.pad, alignment := Alignment.center,
                   fill := (0, 0, 0) } }

/-- Counterexample to C1 as stated: saving into a directory holding a
sibling entry aaa with clear_others = true produces a trace in which a
sibling deletion occurs strictly before the new entry's tensor and
metadata writes — the sibling is removed while the new entry is not yet
on disk.  (The code clears other caches at the start of the try block,
before torch.save, to free disk space first.) -/
theorem save_deletes_sibling_before_writing_counterexample :
    deleteThenWrite (save_embeddings_cache_trace c1dir c1config [] true) =
      true := by
  decide

/-- Claim C1, amended: when clear_others is true, every sibling cache
entry is deleted before — not after — the new entry's tensor and
metadata files are written: the trace never places a write before a
deletion, never deletes the new entry's own files, and always ends with
the tensor write followed by the metadata write. -/
theorem save_clear_others_deletes_first (dir : CacheDir)
    (config : EmbeddingConfig) (frames : List FsPath) :
    writeThenDelete (save_embeddings_cache_trace dir config frames true) =
      false ∧
    FsOp.deleteFile (compute_cache_key config frames) FileKind.pt ∉
      save_embeddings_cache_trace dir config frames true ∧
    FsOp.deleteFile (compute_cache_key config frames) FileKind.json ∉
      save_embeddings_cache_trace dir config frames true ∧
    [FsOp.writeFile (compute_cache_key config frames) FileKind.pt,
     FsOp.writeFile (compute_cache_key config frames) FileKind.json] <:+
      save_embeddings_cache_trace dir config frames true := by
  refine ⟨?_, ?_, ?_, ?_⟩
  · unfold save_embeddings_cache_trace
    rw [if_pos rfl]
    exact writeThenDelete_append
      (clear_trace_all_deletes dir (compute_cache_key config frames)) rfl
  · unfold save_embeddings_cache_trace
    rw [if_pos rfl]
    intro hmem
    rcases List.mem_append.mp hmem with h | h
    · exact clear_trace_spares_keep dir _ FileKind.pt h
    · simp at h
  · unfold save_embeddings_cache_trace
    rw [if_pos rfl]
    intro hmem
    rcases List.mem_append.mp hmem with h | h
    · exact clear_trace_spares_keep dir _ FileKind.json h
    · simp at h
  · exact ⟨clear_other_caches_trace dir (compute_cache_key config frames),
      by unfold save_embeddings_cache_trace; rw [if_pos rfl]⟩

/-- Sample config for the C3 counterexample. -/
def c3config : EmbeddingConfig :=
  { model := "m", model_input_size := 224, normalize := true,
    transform := { mode := TransformMode.pad, alignment := Alignment.center,
                   fill := (0, 0, 0) } }

/-- Two requested frames for the C3 counterexample. -/
def c3frames : List FsPath :=
  [{ dir := "/d", name := "a.jpg" }, { dir := "/d", name := "b.jpg" }]

/-- Stored metadata whose config matches the live config but whose
frame_count (999) and embedding_shape disagree with the request. -/
def c3meta : EmbeddingMeta :=
  { config := c3config, frame_count := 999, embedding_shape := (9, 9, 9),
    version := 1 }

/-- Cache directory holding, under the live cache key, the mismatched
metadata and a loadable tensor. -/
def c3dir : CacheDir :=
  { jsonFiles := [(compute_cache_key c3config c3frames,
      JsonContent.valid c3meta)],
    ptFiles := [(compute_cache_key c3config c3frames,
      PtContent.tensor [])] }

/-- Counterexample to C3 as stated: load_or_compute_embeddings reports
from_cache = true for an entry whose stored frame_count is 999 although
only 2 frames were requested — neither frame_count nor embedding_shape
is cross-checked on the hit path (only the config is compared). -/
theorem cache_hit_skips_frame_count_check_counterexample :
    (load_or_compute_result c3dir c3config c3frames false []).2 = true ∧
    (load_cached_embeddings_meta c3dir
        (compute_cache_key c3config c3frames)).map
      EmbeddingMeta.frame_count = some 999 ∧
    c3frames.length = 2 := by
  refine ⟨?_, ?_, rfl⟩
  · simp [load_or_compute_result, load_cached_embeddings_meta,
      load_cached_embeddings_data, c3dir, c3meta, configEq, List.lookup]
  · simp [load_cached_embeddings_meta, c3dir, c3meta, List.lookup]

/-- Claim C3, amended: a cache hit (from_cache = true) guarantees only
that a version-1 sidecar exists under the live cache key whose stored
config equals the live config; the stored frame_count and
embedding_shape are not cross-checked against the request, so a hit can
return an entry whose frame_count differs from the number of frames
requested. -/
theorem cache_hit_checks_config_only (dir : CacheDir)
    (config : EmbeddingConfig) (frames : List FsPath) (computed : Tensor)
    (h : (load_or_compute_result dir config frames false computed).2 =
      true) :
    ∃ m, load_cached_embeddings_meta dir
        (compute_cache_key config frames) = some m ∧
      configEq m.config config = true ∧ m.version = 1 := by
  unfold load_or_compute_result at h
  cases hm : load_cached_embeddings_meta dir
      (compute_cache_key config frames) with
  | none => rw [hm] at h; simp at h
  | some meta =>
    rw [hm] at h
    have h2 : (if configEq meta.config config = true then
        (match load_cached_embeddings_data dir
            (compute_cache_key config frames) with
         | some t => (t, true)
         | none => (computed, false))
      else ((computed, false) : Tensor × Bool)).2 = true := h
    by_cases hc : configEq meta.config config
    · exact ⟨meta, rfl, hc, load_meta_version hm⟩
    · rw [if_neg hc] at h2
      simp at h2

/-- Witness for C3 (amended): in the counterexample directory the hit
indeed carries a matching config and version 1. -/
theorem cache_hit_checks_config_only_witness :
    ∃ m, load_cached_embeddings_meta c3dir
        (compute_cache_key c3config c3frames) = some m ∧
      configEq m.config c3config = true ∧ m.version = 1 :=
  cache_hit_checks_config_only c3dir c3config c3frames []
    (by simp [load_or_compute_result, load_cached_embeddings_meta,
      load_cached_embeddings_data, c3dir, c3meta, configEq, List.lookup])

/-- Claim C9: when a cache entry's sidecar is present and valid
(version 1) but its tensor file is missing or fails to decode, the
array loader returns none — by construction of the total model it never
raises — while find_existing_cache_in_dir still lists the metadata-only
entry, so a broken entry is distinguishable from the absence of any
entry. -/
theorem broken_cache_entry_distinguishable (dir : CacheDir) (key : String)
    (m : EmbeddingMeta)
    (hmeta : dir.jsonFiles.lookup key = some (JsonContent.valid m))
    (hv : m.version = 1)
    (hpt : dir.ptFiles.lookup key = none ∨
      dir.ptFiles.lookup key = some PtContent.corrupt) :
    load_cached_embeddings_data dir key = none ∧
    m ∈ find_existing_cache_in_dir dir := by
  constructor
  · unfold load_cached_embeddings_data
    rcases hpt with h | h <;> rw [h]
  · unfold find_existing_cache_in_dir
    apply List.mem_filterMap.mpr
    refine ⟨key, ?_, ?_⟩
    · have hk : key ∈ dir.jsonFiles.map Prod.fst := lookup_some_key_mem hmeta
      exact ((List.perm_insertionSort (fun a b : String => a ≤ b)
        (dir.jsonFiles.map Prod.fst)).mem_iff).mpr hk
    · unfold load_cached_embeddings_meta
      rw [hmeta]
      exact if_pos hv

/-- Witness for C9: a directory holding one valid sidecar under key k
and no tensor file at all; the loader returns none and find_existing
still lists the metadata. -/
theorem broken_cache_entry_distinguishable_witness :
    load_cached_embeddings_data
      { jsonFiles := [("k", JsonContent.valid
          { config := { model := "m", model_input_size := 224,
                        normalize := true,
                        transform := { mode := TransformMode.pad,
                                       alignment := Alignment.center,
                                       fill := (0, 0, 0) } },
            frame_count := 3, embedding_shape := (3, 196, 384),
            version := 1 })],
        ptFiles := [] } "k" = none ∧
    ({ config := { model := "m", model_input_size := 224,
                   normalize := true,
                   transform := { mode := TransformMode.pad,
                                  alignment := Alignment.center,
                                  fill := (0, 0, 0) } },
       frame_count := 3, embedding_shape := (3, 196, 384),
       version := 1 } : EmbeddingMeta) ∈
      find_existing_cache_in_dir
        { jsonFiles := [("k", JsonContent.valid
            { config := { model := "m", model_input_size := 224,
                          normalize := true,
                          transform := { mode := TransformMode.pad,
                                         alignment := Alignment.center,
                                         fill := (0, 0, 0) } },
              frame_count := 3, embedding_shape := (3, 196, 384),
              version := 1 })],
          ptFiles := [] } :=
  broken_cache_entry_distinguishable _ "k" _ (by decide) rfl (Or.inl rfl)

/-- Claim C7: in target-count mode the selector is re-run with the
concentration percentile stepping down the fixed schedule 95, 90, ..., 5
and the result is the candidate list of the first schedule step whose
count is at most the requested target; when no step reaches the target,
the last computed (possibly overshooting) result, the one at
percentile 5, is returned. -/
theorem target_count_mode_first_fit (total_change concentration entropy :
    List ℚ) (tcp entp : ℚ) (minSpacing target : Nat) :
    targetCountSelect total_change concentration entropy tcp entp
      minSpacing target =
      match percentileSchedule.find?
        (fun p => decide ((selectAtConcPercentile total_change concentration
          entropy p tcp entp minSpacing).length ≤ target)) with
      | some p => selectAtConcPercentile total_change concentration entropy
          p tcp entp minSpacing
      | none => selectAtConcPercentile total_change concentration entropy
          5 tcp entp minSpacing := by
  unfold targetCountSelect
  rw [autoCalibrate_eq _ _ percentileSchedule []
    (by simp [percentileSchedule])]
  have hlast : percentileSchedule.getLastD 0 = 5 := rfl
  rw [hlast]

/-- Counterexample to C6 as stated: for the input of N = 3 identical
vectors [[0], [0], [0]], target count k = 2 < N and initial random index
0, farthest_point_sampling returns [0, 0]: two indices that are neither
unique nor strictly ascending (numpy argmax of the all-zero min-distance
vector falls back to the already-selected index 0). -/
theorem farthest_point_sampling_counterexample :
    farthest_point_sampling [[(0 : ℚ)], [0], [0]] 2 0 = [0, 0] ∧
    ¬ (farthest_point_sampling [[(0 : ℚ)], [0], [0]] 2 0).Pairwise
      (fun a b => a < b) := by
  have h : farthest_point_sampling [[(0 : ℚ)], [0], [0]] 2 0 = [0, 0] := by
    have hsq : sqDist [(0 : ℚ)] [0] = 0 := by norm_num [sqDist]
    have hmd : minDists (rowDist [[(0 : ℚ)], [0], [0]]) 3 [0] = [0, 0, 0] := by
      have hr : List.range 3 = [0, 1, 2] := rfl
      simp [minDists, hr, rowDist, listMin, hsq]
    have hidx : argmaxIdx [(0 : ℚ), 0, 0] = 0 := by
      simp [argmaxIdx, argmaxGo]
    have hloop : fpsLoop (rowDist [[(0 : ℚ)], [0], [0]]) 3 1 [0] = [0, 0] := by
      have h1 : fpsLoop (rowDist [[(0 : ℚ)], [0], [0]]) 3 1 [0] =
          [0] ++
            [argmaxIdx (minDists (rowDist [[(0 : ℚ)], [0], [0]]) 3 [0])] :=
        rfl
      rw [h1, hmd, hidx]
      rfl
    unfold farthest_point_sampling
    rw [if_neg (by norm_num)]
    show List.insertionSort (fun a b : Nat => a ≤ b)
      (fpsLoop (rowDist [[(0 : ℚ)], [0], [0]]) 3 1 [0]) = [0, 0]
    rw [hloop]
    decide
  refine ⟨h, ?_⟩
  rw [h]
  decide

/-- Claim C6, amended: if k ≥ N the output is exactly [0, ..., N-1];
if 1 ≤ k < N and the N input vectors are pairwise distinct (all of one
feature dimension D), then for every value seed < N of the random
initial index the output is exactly k unique indices below N in strictly
ascending order.  (As the counterexample shows, with duplicate input
vectors the argmax can re-select an already chosen index, and k = 0
still returns the single seed index, so the distinctness and k ≥ 1
restrictions are necessary.) -/
theorem farthest_point_sampling_spec (E : List (List ℚ)) (k seed D : Nat)
    (hseed : seed < E.length) (hD : ∀ v ∈ E, v.length = D)
    (hnd : E.Nodup) (hk : 1 ≤ k) :
    (E.length ≤ k → farthest_point_sampling E k seed = List.range E.length) ∧
    (k < E.length →
      (farthest_point_sampling E k seed).length = k ∧
      (farthest_point_sampling E k seed).Sorted (fun a b => a < b) ∧
      ∀ x ∈ farthest_point_sampling E k seed, x < E.length) := by
  constructor
  · intro hkn
    unfold farthest_point_sampling
    rw [if_pos hkn]
  · intro hkn
    unfold farthest_point_sampling
    rw [if_neg (by omega)]
    have hself : ∀ i, rowDist E i i = 0 := fun i => sqDist_self _
    have hnonneg : ∀ i j, 0 ≤ rowDist E i j := fun i j => sqDist_nonneg _ _
    have hpos : ∀ i j, i < E.length → j < E.length → i ≠ j →
        0 < rowDist E i j := by
      intro i j hi hj hij
      unfold rowDist
      rw [List.getD_eq_get _ _ hi, List.getD_eq_get _ _ hj]
      apply sqDist_pos
      · rw [hD _ (List.get_mem E i hi), hD _ (List.get_mem E j hj)]
      · intro heq
        have hinj := List.nodup_iff_injective_get.mp hnd
        have hfin := hinj heq
        exact hij (by simpa using hfin)
    obtain ⟨hlen, hnodup, hmem⟩ := fpsLoop_spec (rowDist E) E.length hself
      hnonneg hpos (k - 1) [seed] (by simp)
      (by
        intro x hx
        rw [List.mem_singleton] at hx
        exact hx ▸ hseed)
      (List.nodup_singleton _)
      (by simp; omega)
    have hperm := List.perm_insertionSort (fun a b : Nat => a ≤ b)
      (fpsLoop (rowDist E) E.length (k - 1) [seed])
    refine ⟨?_, ?_, ?_⟩
    · rw [hperm.length_eq, hlen]
      simp
      omega
    · exact List.Sorted.lt_of_le (List.sorted_insertionSort _ _)
        (hperm.nodup_iff.mpr hnodup)
    · intro x hx
      exact hmem x (hperm.mem_iff.mp hx)

/-- Witness for C6 (amended): three distinct one-dimensional vectors,
k = 2, seed 0; the instantiated conclusion holds. -/
theorem farthest_point_sampling_spec_witness :
    (([[(0 : ℚ)], [2], [5]] : List (List ℚ)).length ≤ 2 →
      farthest_point_sampling [[(0 : ℚ)], [2], [5]] 2 0 =
        List.range ([[(0 : ℚ)], [2], [5]] : List (List ℚ)).length) ∧
    (2 < ([[(0 : ℚ)], [2], [5]] : List (List ℚ)).length →
      (farthest_point_sampling [[(0 : ℚ)], [2], [5]] 2 0).length = 2 ∧
      (farthest_point_sampling [[(0 : ℚ)], [2], [5]] 2 0).Sorted
        (fun a b => a < b) ∧
      ∀ x ∈ farthest_point_sampling [[(0 : ℚ)], [2], [5]] 2 0,
        x < ([[(0 : ℚ)], [2], [5]] : List (List ℚ)).length) :=
  farthest_point_sampling_spec [[(0 : ℚ)], [2], [5]] 2 0 1 (by decide)
    (by decide) (by decide) (by decide)

/-- Claim C5: compute_cache_key is a pure function of the config and the
set of frame filenames: two calls with equal EmbeddingConfig values and
frame lists carrying the same filenames, in any order and regardless of
the frames' directory components, return the identical key. -/
theorem compute_cache_key_pure (config : EmbeddingConfig)
    (frames1 frames2 : List FsPath)
    (h : (frames1.map FsPath.name).Perm (frames2.map FsPath.name)) :
    compute_cache_key config frames1 = compute_cache_key config frames2 := by
  unfold compute_cache_key
  have hnames : (List.insertionSort nameLe frames1).map FsPath.name =
      (List.insertionSort nameLe frames2).map FsPath.name := by
    rw [map_name_insertionSort, map_name_insertionSort]
    exact insertionSort_eq_of_perm h
  have hjoin :
      (List.insertionSort nameLe frames1).map (fun p => p.name ++ nul) =
        (List.insertionSort nameLe frames2).map (fun p => p.name ++ nul) := by
    have h1 : ∀ fs : List FsPath,
        fs.map (fun p => p.name ++ nul) =
          (fs.map FsPath.name).map (fun s => s ++ nul) := by
      intro fs
      rw [List.map_map]
      rfl
    rw [h1, h1, hnames]
  rw [hjoin]

/-- Witness for C5: the same two filenames listed in opposite orders and
under different parent directories produce the same cache key. -/
theorem compute_cache_key_pure_witness :
    compute_cache_key
      { model := "m", model_input_size := 224, normalize := true,
        transform := { mode := TransformMode.pad,
                       alignment := Alignment.center, fill := (0, 0, 0) } }
      [{ dir := "/data/a", name := "b.jpg" },
       { dir := "/data/a", name := "a.jpg" }] =
    compute_cache_key
      { model := "m", model_input_size := 224, normalize := true,
        transform := { mode := TransformMode.pad,
                       alignment := Alignment.center, fill := (0, 0, 0) } }
      [{ dir := "/elsewhere", name := "a.jpg" },
       { dir := "/moved", name := "b.jpg" }] :=
  compute_cache_key_pure _ _ _ (by decide)

/-- Claim C8: temporal_smoothing with window = 1 is the identity
function, and for every window > 1 and every signal of length at least 1
the smoothed output has exactly the input's length. -/
theorem temporal_smoothing_identity_and_length (signal : List ℚ)
    (window : Nat) (hw : 1 < window) (_hn : 1 ≤ signal.length) :
    temporal_smoothing signal 1 = signal ∧
      (temporal_smoothing signal window).length = signal.length := by
  constructor
  · simp [temporal_smoothing]
  · have hnot : ¬ window ≤ 1 := by omega
    simp only [temporal_smoothing, hnot, if_false]
    have hpadded :
        (List.replicate (window / 2) (signal.headD 0) ++ signal ++
          List.replicate (window / 2) (signal.getLastD 0)).length
        = window / 2 + signal.length + window / 2 := by
      simp [List.length_append]
      omega
    simp only [List.length_take, List.length_map, List.length_range, hpadded]
    omega

/-- Witness for C8: for the signal [3, 1, 4, 1, 5] and window 4, the
identity at window 1 holds and the smoothed output still has 5 entries. -/
theorem temporal_smoothing_identity_and_length_witness :
    temporal_smoothing [(3 : ℚ), 1, 4, 1, 5] 1 = [(3 : ℚ), 1, 4, 1, 5] ∧
      (temporal_smoothing [(3 : ℚ), 1, 4, 1, 5] 4).length =
        ([(3 : ℚ), 1, 4, 1, 5] : List ℚ).length :=
  temporal_smoothing_identity_and_length [(3 : ℚ), 1, 4, 1, 5] 4
    (by decide) (by decide)

end YellowToyCar
